import Mathlib

namespace QTG

/-
Verification development for the query-trail generation pass
(src/src/ast_pass/code_gen_pass/gen_query_trails.rs).

The pass walks a schema document, builds a field index from object-type
definitions, checks unions for same-name/different-target field conflicts
(emitting non-fatal diagnostics), resolves each union's field set by name
(first occurrence wins), and emits one companion type per
Object/Interface/Union definition whose accessors are presence checks
(scalar fields) or nested-trail walks (composite fields).

Collaborators (upstream parser types, the scalar/composite type
classifier, the identifier normalizers, juniper's look-ahead selection)
are modelled from the spec and passed as parameters where the source
treats them as abstract.
-/

/-- Modelled from the spec: the upstream parser's type reference — a named
type possibly wrapped in nullability and list markers. -/
inductive GqlType where
  | named (n : String)
  | listOf (t : GqlType)
  | nonNull (t : GqlType)
  deriving Repr, DecidableEq

/-- Modelled from the spec: the collaborator `type_name` resolves a type
reference to its base named type, ignoring nullability/list wrappers. -/
def type_name : GqlType → String
  | GqlType.named n => n
  | GqlType.listOf t => type_name t
  | GqlType.nonNull t => type_name t

/-- A schema field: wire name, target type reference, source position. -/
structure Field where
  name : String
  field_type : GqlType
  position : Nat
  deriving Repr, DecidableEq

/-- An object-type definition: name and declared fields in order. -/
structure ObjectType where
  name : String
  fields : List Field
  deriving Repr, DecidableEq

/-- An interface-type definition: name and declared fields in order. -/
structure InterfaceType where
  name : String
  fields : List Field
  deriving Repr, DecidableEq

/-- A union-type definition: source position, name, member type names in
declaration order. -/
structure UnionType where
  position : Nat
  name : String
  types : List String
  deriving Repr, DecidableEq

/-- The type-definition kinds the pass can meet; scalars, enums and input
objects are inert to this pass and collapse into `other`. -/
inductive TypeDefinition where
  | object (o : ObjectType)
  | interface (i : InterfaceType)
  | union (u : UnionType)
  | other (name : String)
  deriving Repr, DecidableEq

/-- A top-level definition of the document. -/
inductive Definition where
  | typeDef (td : TypeDefinition)
  | otherDef
  deriving Repr, DecidableEq

/-- A schema document: its definitions in source order. -/
structure Document where
  definitions : List Definition
  deriving Repr, DecidableEq

/-- The field index `HashMap<&String, Vec<&Field>>`, modelled as an
association list; it is only ever read through `get`, so the entry order
never matters. -/
abbrev FieldIndexMap := List (String × List Field)

/-- HashMap lookup. -/
def fmGet (m : FieldIndexMap) (k : String) : Option (List Field) :=
  match m.find? (fun e => e.1 = k) with
  | some e => some e.2
  | none => none

/-- One step of `map.entry(&obj.name).or_insert_with(|| vec![]).push(field)`:
append `f` to the entry for `k`, creating the entry if absent. -/
def fmInsertField (m : FieldIndexMap) (k : String) (f : Field) : FieldIndexMap :=
  match m with
  | [] => [(k, [f])]
  | e :: rest => if e.1 = k then (e.1, e.2 ++ [f]) :: rest else e :: fmInsertField rest k f

/-- Embeds `build_fields_map`: fold over the document's definitions, and for
each object-type definition push each of its fields onto that object's
entry.  Non-object definitions contribute nothing. -/
def build_fields_map (doc : Document) : FieldIndexMap :=
  doc.definitions.foldl
    (fun m d =>
      match d with
      | Definition.typeDef (TypeDefinition.object obj) =>
          obj.fields.foldl (fun m2 f => fmInsertField m2 obj.name f) m
      | _ => m)
    []

/-- The one diagnostic kind this pass emits, `ErrorKind::UnionFieldTypeMismatch`
together with the union's source position. -/
structure Diagnostic where
  position : Nat
  union_name : String
  field_name : String
  type_a : String
  type_b : String
  field_type_a : String
  field_type_b : String
  deriving Repr, DecidableEq

/-- The rolling `prev: HashMap<&str, (&str, &str)>` of the consistency
checker, modelled as a function (a HashMap used only through get/insert). -/
abbrev PrevMap := String → Option (String × String)

/-- The body of the checker's inner loop: on a field of member `type_b`,
emit a diagnostic when the rolling entry for the field's name holds a
different target type, then overwrite the rolling entry. -/
def scanField (union : UnionType) (type_b : String)
    (acc : PrevMap × List Diagnostic) (field : Field) : PrevMap × List Diagnostic :=
  let field_type_b := type_name field.field_type
  let diags :=
    match acc.1 field.name with
    | some (type_a, field_type_a) =>
        if field_type_b ≠ field_type_a then
          acc.2 ++ [Diagnostic.mk union.position union.name field.name
            type_a type_b field_type_a field_type_b]
        else acc.2
    | none => acc.2
  (fun k => if k = field.name then some (type_b, field_type_b) else acc.1 k, diags)

/-- The checker's outer loop body: members absent from the field index are
skipped. -/
def scanMember (fields_map : FieldIndexMap) (union : UnionType)
    (acc : PrevMap × List Diagnostic) (type_b : String) : PrevMap × List Diagnostic :=
  match fmGet fields_map type_b with
  | some fields => fields.foldl (scanField union type_b) acc
  | none => acc

/-- Embeds `error_msg_if_field_types_dont_overlap`: a single linear pass over
members in declaration order and each member's fields in order, returning
the diagnostics in emission order. -/
def error_msg_if_field_types_dont_overlap (union : UnionType)
    (fields_map : FieldIndexMap) : List Diagnostic :=
  (union.types.foldl (scanMember fields_map union) (fun _ => none, [])).2

/-- One step of `HashSet<HashFieldByName>::insert`: the set hashes and
compares fields by name only, and `insert` keeps the existing element on
collision, so the first field seen with a given name wins.  The list
records insertion order; the real set iterates in arbitrary order, which
the pass model takes as an oracle. -/
def insertFieldByName (s : List Field) (f : Field) : List Field :=
  if s.any (fun g => g.name = f.name) then s else s ++ [f]

/-- Embeds `build_union_fields_set`: for each member type in declaration
order, insert each of its indexed fields into the by-name set; members
absent from the field index are skipped. -/
def build_union_fields_set (union : UnionType) (fields_map : FieldIndexMap) : List Field :=
  union.types.foldl
    (fun s t =>
      match fmGet fields_map t with
      | some fields => fields.foldl insertFieldByName s
      | none => s)
    []

/-- Modelled from the spec: the collaborating type classifier's verdict
(`graphql_scalar_type_to_rust_type`), Scalar or Composite. -/
inductive TypeKind where
  | scalar
  | type_
  deriving Repr, DecidableEq

/-- Modelled from the spec: the live look-ahead selection — a node with the
selected children of the incoming query at this depth. -/
inductive LookAhead where
  | node (name : String) (children : List LookAhead)

/-- Name of a look-ahead node. -/
def LookAhead.lname : LookAhead → String
  | LookAhead.node n _ => n

/-- Children of a look-ahead node. -/
def LookAhead.children : LookAhead → List LookAhead
  | LookAhead.node _ cs => cs

/-- Modelled from the spec: juniper's `select_child` — the selected child
with the given wire field name, if any. -/
def select_child (la : LookAhead) (name : String) : Option LookAhead :=
  la.children.find? (fun c => c.lname = name)

/-- The two lifecycle states `Walked` / `NotWalked` of a query trail. -/
inductive WalkState where
  | walked
  | notWalked
  deriving Repr, DecidableEq

/-- The emitted `QueryTrail<'a, T, K>`: an optional look-ahead link and the
node type parameter, indexed by the lifecycle state. -/
structure QueryTrail (k : WalkState) where
  look_ahead : Option LookAhead
  node_type : String

/-- The emitted `QueryTrail::walk`, available only on `NotWalked` trails:
a present link yields a walked trail carrying the same link; an absent
link yields `none`. -/
def QueryTrail.walk (t : QueryTrail WalkState.notWalked) :
    Option (QueryTrail WalkState.walked) :=
  match t.look_ahead with
  | some inner => some (QueryTrail.mk (some inner) t.node_type)
  | none => none

/-- The emitted `MakeQueryTrail::make_query_trail`: adapt a live look-ahead
into a walked root trail. -/
def make_query_trail (la : LookAhead) (t : String) : QueryTrail WalkState.walked :=
  QueryTrail.mk (some la) t

/-- The shape of one emitted accessor: a scalar presence check or a
composite walk into a target type. -/
inductive AccessorShape where
  | scalarCheck (wire_name : String)
  | compositeWalk (wire_name : String) (target : String)
  deriving Repr, DecidableEq

/-- One emitted accessor: its (normalized) method name and its shape. -/
structure Accessor where
  name : String
  shape : AccessorShape
  deriving Repr, DecidableEq

/-- What running one emitted accessor returns. -/
inductive AccessorResult where
  | boolResult (b : Bool)
  | trailResult (t : QueryTrail WalkState.notWalked)

/-- Semantics of the emitted accessor bodies: a scalar check returns whether
the link is present and has a selected child with the wire name; a
composite walk returns a not-walked trail whose link is the selected child
of the current link, if any. -/
def runAccessor (shape : AccessorShape) (look_ahead : Option LookAhead) : AccessorResult :=
  match shape with
  | AccessorShape.scalarCheck n =>
      AccessorResult.boolResult ((look_ahead.bind (fun la => select_child la n)).isSome)
  | AccessorShape.compositeWalk n target =>
      AccessorResult.trailResult
        (QueryTrail.mk (look_ahead.bind (fun la => select_child la n)) target)

/-- Embeds `gen_field_walk_method`, parameterized by the collaborators:
`classify` is the scalar/composite classifier, `snake` and `camel` the
identifier normalizers.  The accessor's name is the snake-cased wire name;
its shape follows the classifier's verdict on the field's named target. -/
def gen_field_walk_method (classify : String → TypeKind) (snake camel : String → String)
    (field : Field) : Accessor :=
  let ft := type_name field.field_type
  match classify ft with
  | TypeKind.scalar => Accessor.mk (snake field.name) (AccessorShape.scalarCheck field.name)
  | TypeKind.type_ =>
      Accessor.mk (snake field.name) (AccessorShape.compositeWalk field.name (camel ft))

/-- Embeds `InternalQueryTrailNode`: the closed tagged variant unifying the
three shapes; the union variant carries its resolved field set (in the
iteration order the oracle chose). -/
inductive InternalQueryTrailNode where
  | object (o : ObjectType)
  | interface (i : InterfaceType)
  | union (u : UnionType) (fields : List Field)

/-- Embeds `InternalQueryTrailNode::name`. -/
def InternalQueryTrailNode.nodeName : InternalQueryTrailNode → String
  | InternalQueryTrailNode.object o => o.name
  | InternalQueryTrailNode.interface i => i.name
  | InternalQueryTrailNode.union u _ => u.name

/-- Embeds `InternalQueryTrailNode::fields`: declared fields in order for
objects and interfaces, the carried resolved set for unions. -/
def InternalQueryTrailNode.nodeFields : InternalQueryTrailNode → List Field
  | InternalQueryTrailNode.object o => o.fields
  | InternalQueryTrailNode.interface i => i.fields
  | InternalQueryTrailNode.union _ fs => fs

/-- One emitted companion type: the schema type's name and its accessors in
emission order. -/
structure CompanionType where
  name : String
  accessors : List Accessor
  deriving Repr, DecidableEq

/-- Embeds `gen_field_walk_methods`: one companion type whose accessors are
the node's fields mapped through `gen_field_walk_method`. -/
def gen_field_walk_methods (classify : String → TypeKind) (snake camel : String → String)
    (node : InternalQueryTrailNode) : CompanionType :=
  CompanionType.mk node.nodeName
    (node.nodeFields.map (gen_field_walk_method classify snake camel))

/-- Embeds `gen_query_trails`: build the field index once, then fold over
the definitions emitting companions (objects, interfaces, unions) and,
for unions, first running the consistency checker.  `iter` is the oracle
for the run's `HashSet` iteration order of each union's resolved field
set (it receives the union's name and the set in insertion order). -/
def gen_query_trails (classify : String → TypeKind) (snake camel : String → String)
    (iter : String → List Field → List Field) (doc : Document) :
    List CompanionType × List Diagnostic :=
  let fields_map := build_fields_map doc
  doc.definitions.foldl
    (fun acc d =>
      match d with
      | Definition.typeDef (TypeDefinition.object obj) =>
          (acc.1 ++ [gen_field_walk_methods classify snake camel
            (InternalQueryTrailNode.object obj)], acc.2)
      | Definition.typeDef (TypeDefinition.interface i) =>
          (acc.1 ++ [gen_field_walk_methods classify snake camel
            (InternalQueryTrailNode.interface i)], acc.2)
      | Definition.typeDef (TypeDefinition.union u) =>
          (acc.1 ++ [gen_field_walk_methods classify snake camel
            (InternalQueryTrailNode.union u (iter u.name (build_union_fields_set u fields_map)))],
           acc.2 ++ error_msg_if_field_types_dont_overlap u fields_map)
      | _ => acc)
    ([], [])

/-
Spec-side reference formulation of the union consistency checker (claim
refinement target): the flattened sequence of (owning member, field)
occurrences, the most recently seen earlier occurrence of a name, and the
rolling-previous scan written directly from the spec's words.
-/

/-- The union's field occurrences in visit order: members in declaration
order, each member's indexed fields in declaration order, tagged with the
owning member's name; members absent from the index contribute nothing. -/
def unionFieldOccurrences (union : UnionType) (fields_map : FieldIndexMap) :
    List (String × Field) :=
  union.types.flatMap (fun t => ((fmGet fields_map t).getD []).map (fun f => (t, f)))

/-- The most recently seen earlier occurrence of field name `n` in the
prefix `pre`, as (owning type, target type name). -/
def lastPrior (pre : List (String × Field)) (n : String) : Option (String × String) :=
  match pre.reverse.find? (fun p => p.2.name = n) with
  | some p => some (p.1, type_name p.2.field_type)
  | none => none

/-- The spec's rolling-previous scan: at each occurrence, emit a diagnostic
exactly when the most recently seen earlier occurrence of the same name
has a different target type. -/
def specScanAux (union : UnionType) :
    List (String × Field) → List (String × Field) → List Diagnostic
  | _, [] => []
  | pre, occ :: rest =>
      (match lastPrior pre occ.2.name with
       | some (ta, fta) =>
           if type_name occ.2.field_type ≠ fta then
             [Diagnostic.mk union.position union.name occ.2.name ta occ.1 fta
               (type_name occ.2.field_type)]
           else []
       | none => []) ++ specScanAux union (pre ++ [occ]) rest

/-- The spec-side checker: the rolling scan over all field occurrences. -/
def specScan (union : UnionType) (fields_map : FieldIndexMap) : List Diagnostic :=
  specScanAux union [] (unionFieldOccurrences union fields_map)

/-- Scenario C data: members A, B, C where only B and C conflict under the
rolling scan (A.f and B.f target X, C.f targets Y). -/
def scenC_fm : FieldIndexMap :=
  [("A", [Field.mk "f" (GqlType.nonNull (GqlType.named "X")) 0]),
   ("B", [Field.mk "f" (GqlType.nonNull (GqlType.named "X")) 1]),
   ("C", [Field.mk "f" (GqlType.nonNull (GqlType.named "Y")) 2])]

/-- Scenario C union: three members in declaration order. -/
def scenC_union : UnionType := UnionType.mk 0 "U" ["A", "B", "C"]

/-
Helper lemmas for the checker refinement proof.
-/

theorem lastPrior_nil (n : String) : lastPrior [] n = none := rfl

theorem lastPrior_append (pre : List (String × Field)) (p : String × Field) (n : String) :
    lastPrior (pre ++ [p]) n =
      if p.2.name = n then some (p.1, type_name p.2.field_type) else lastPrior pre n := by
  unfold lastPrior
  rw [List.reverse_append]
  by_cases h : p.2.name = n
  · simp [h]
  · simp [h]

theorem checker_fold_flatten (fm : FieldIndexMap) (u : UnionType)
    (types : List String) (acc : PrevMap × List Diagnostic) :
    types.foldl (scanMember fm u) acc =
      (types.flatMap (fun t => ((fmGet fm t).getD []).map (fun f => (t, f)))).foldl
        (fun a p => scanField u p.1 a p.2) acc := by
  induction types generalizing acc with
  | nil => rfl
  | cons t ts ih =>
      rw [List.flatMap_cons, List.foldl_append, List.foldl_cons, ih]
      congr 1
      show scanMember fm u acc t = _
      unfold scanMember
      cases hg : fmGet fm t with
      | some fields => simp [hg, List.foldl_map]
      | none => simp [hg]

theorem checker_fold_spec (u : UnionType) (occ : List (String × Field)) :
    ∀ (pre : List (String × Field)) (prev : PrevMap) (ds : List Diagnostic),
      (∀ n, prev n = lastPrior pre n) →
      (occ.foldl (fun a p => scanField u p.1 a p.2) (prev, ds)).2 =
        ds ++ specScanAux u pre occ := by
  induction occ with
  | nil => intro pre prev ds _; simp [specScanAux]
  | cons p rest ih =>
      intro pre prev ds hinv
      rw [List.foldl_cons]
      have hstep : scanField u p.1 (prev, ds) p.2 =
          (fun k => if k = p.2.name then some (p.1, type_name p.2.field_type) else prev k,
           ds ++ (match lastPrior pre p.2.name with
                  | some (ta, fta) =>
                      if type_name p.2.field_type ≠ fta then
                        [Diagnostic.mk u.position u.name p.2.name ta p.1 fta
                          (type_name p.2.field_type)]
                      else []
                  | none => [])) := by
        unfold scanField
        dsimp only
        rw [hinv p.2.name]
        cases hlp : lastPrior pre p.2.name with
        | some q =>
            cases q with
            | mk ta fta =>
                by_cases hne : type_name p.2.field_type ≠ fta
                · simp [hne]
                · simp [hne]
        | none => simp
      rw [hstep, ih (pre ++ [p])]
      · show _ = ds ++ specScanAux u pre (p :: rest)
        rw [List.append_assoc]
        congr 1
      · intro n
        rw [lastPrior_append]
        by_cases h : p.2.name = n
        · simp [h]
        · simp [h, Ne.symm h, hinv n]

theorem checker_eq_specScan (u : UnionType) (fm : FieldIndexMap) :
    error_msg_if_field_types_dont_overlap u fm = specScan u fm := by
  unfold error_msg_if_field_types_dont_overlap specScan unionFieldOccurrences
  rw [checker_fold_flatten, checker_fold_spec u _ [] (fun _ => none) []]
  · rfl
  · intro n
    rw [lastPrior_nil]

/-- C1: the consistency checker emits a diagnostic exactly when the current
field occurrence's named target type differs from the most recently seen
earlier occurrence of the same field name (members in declaration order,
fields in declaration order, the rolling entry then overwritten either
way): the checker equals the spec-side rolling scan, and on a three-member
union where only members 2 and 3 conflict it emits exactly one
diagnostic. -/
theorem union_checker_rolling_scan :
    (∀ (u : UnionType) (fm : FieldIndexMap),
        error_msg_if_field_types_dont_overlap u fm = specScan u fm)
    ∧ (error_msg_if_field_types_dont_overlap scenC_union scenC_fm).length = 1 := by
  constructor
  · exact checker_eq_specScan
  · decide

/-
The union field-set builder: first-seen-per-name resolution.
-/

/-- All fields of a union's members in visit order (members in declaration
order, fields in declaration order), without the owner tags. -/
def memberFields (union : UnionType) (fields_map : FieldIndexMap) : List Field :=
  union.types.flatMap (fun t => (fmGet fields_map t).getD [])

/-- Option fallback, first-biased. -/
def oor {α : Type} (a b : Option α) : Option α :=
  match a with
  | some x => some x
  | none => b

theorem oor_none_right {α : Type} (a : Option α) : oor a none = a := by
  cases a <;> rfl

theorem oor_assoc {α : Type} (a b c : Option α) : oor (oor a b) c = oor a (oor b c) := by
  cases a <;> rfl

theorem find?_append_oor {α : Type} (l₁ l₂ : List α) (p : α → Bool) :
    (l₁ ++ l₂).find? p = oor (l₁.find? p) (l₂.find? p) := by
  induction l₁ with
  | nil => rfl
  | cons a l ih =>
      by_cases h : p a = true
      · simp [List.find?_cons_of_pos _ h, oor]
      · simp [List.find?_cons_of_neg _ h, ih]

theorem any_name_iff (s : List Field) (n : String) :
    s.any (fun g => g.name = n) = true ↔ ∃ g ∈ s, g.name = n := by
  simp [List.any_eq_true]

theorem set_fold_flatten (fm : FieldIndexMap) (types : List String) :
    ∀ acc : List Field,
      types.foldl
        (fun s t =>
          match fmGet fm t with
          | some fields => fields.foldl insertFieldByName s
          | none => s)
        acc =
      (types.flatMap (fun t => (fmGet fm t).getD [])).foldl insertFieldByName acc := by
  induction types with
  | nil => intro acc; rfl
  | cons t ts ih =>
      intro acc
      rw [List.flatMap_cons, List.foldl_append, List.foldl_cons, ih]
      congr 1
      cases hg : fmGet fm t with
      | some fields => simp
      | none => simp

theorem buildset_eq (u : UnionType) (fm : FieldIndexMap) :
    build_union_fields_set u fm = (memberFields u fm).foldl insertFieldByName [] := by
  unfold build_union_fields_set memberFields
  exact set_fold_flatten fm u.types []

theorem insert_find? (s : List Field) (f : Field) (n : String) :
    (insertFieldByName s f).find? (fun g => g.name = n) =
      oor (s.find? (fun g => g.name = n)) (if f.name = n then some f else none) := by
  unfold insertFieldByName
  by_cases h : s.any (fun g => g.name = f.name) = true
  · rw [if_pos h]
    by_cases hn : f.name = n
    · subst hn
      obtain ⟨g, hg, hgn⟩ := (any_name_iff s f.name).mp h
      cases hf : s.find? (fun g => g.name = f.name) with
      | some x => rfl
      | none =>
          exfalso
          have := List.find?_eq_none.mp hf g hg
          simp [hgn] at this
    · simp [hn, oor_none_right]
  · rw [if_neg h, find?_append_oor]
    congr 1
    by_cases hn : f.name = n
    · simp [List.find?_cons, hn]
    · simp [List.find?_cons, hn]

theorem foldl_insert_find? (n : String) :
    ∀ (l acc : List Field),
      (l.foldl insertFieldByName acc).find? (fun g => g.name = n) =
        oor (acc.find? (fun g => g.name = n)) (l.find? (fun g => g.name = n)) := by
  intro l
  induction l with
  | nil => intro acc; simp [oor_none_right]
  | cons f l ih =>
      intro acc
      rw [List.foldl_cons, ih, insert_find?, oor_assoc]
      congr 1
      by_cases hn : f.name = n
      · simp [List.find?_cons, hn, oor]
      · simp [List.find?_cons, hn, oor]

theorem insert_nodup (s : List Field) (f : Field) :
    (s.map Field.name).Nodup → ((insertFieldByName s f).map Field.name).Nodup := by
  intro h
  unfold insertFieldByName
  by_cases hc : s.any (fun g => g.name = f.name) = true
  · rw [if_pos hc]; exact h
  · rw [if_neg hc, List.map_append]
    refine List.Nodup.append h (List.nodup_singleton _) ?_
    intro a ha hb
    simp only [List.map_cons, List.map_nil, List.mem_singleton] at hb
    subst hb
    have : ∃ g ∈ s, g.name = f.name := by
      obtain ⟨g, hg, hgn⟩ := List.mem_map.mp ha
      exact ⟨g, hg, hgn⟩
    exact hc ((any_name_iff s f.name).mpr this)

theorem foldl_insert_nodup :
    ∀ (l acc : List Field), (acc.map Field.name).Nodup →
      ((l.foldl insertFieldByName acc).map Field.name).Nodup := by
  intro l
  induction l with
  | nil => intro acc h; exact h
  | cons f l ih => intro acc h; exact ih _ (insert_nodup acc f h)

theorem mem_iff_find?_of_nodup (s : List Field) (h : (s.map Field.name).Nodup) (f : Field) :
    f ∈ s ↔ s.find? (fun g => g.name = f.name) = some f := by
  induction s with
  | nil => simp
  | cons g rest ih =>
      rw [List.map_cons, List.nodup_cons] at h
      constructor
      · intro hm
        rcases List.mem_cons.mp hm with rfl | hr
        · have : (fun x => decide (x.name = f.name)) f = true := by simp
          simp [List.find?_cons_of_pos _ this]
        · have hgn : g.name ≠ f.name := by
            intro he
            exact h.1 (he ▸ (List.mem_map.mpr ⟨f, hr, rfl⟩))
          rw [List.find?_cons_of_neg _ (by simp [hgn])]
          exact (ih h.2).mp hr
      · intro hf
        exact List.mem_of_find?_eq_some hf

theorem find?_isSome_iff (s : List Field) (n : String) :
    (s.find? (fun g => g.name = n)).isSome = true ↔ ∃ g ∈ s, g.name = n := by
  rw [List.find?_isSome]
  simp

theorem buildset_nodup (u : UnionType) (fm : FieldIndexMap) :
    ((build_union_fields_set u fm).map Field.name).Nodup := by
  rw [buildset_eq]; exact foldl_insert_nodup _ [] (by simp)

theorem buildset_find? (u : UnionType) (fm : FieldIndexMap) (n : String) :
    (build_union_fields_set u fm).find? (fun g => g.name = n) =
      (memberFields u fm).find? (fun g => g.name = n) := by
  rw [buildset_eq, foldl_insert_find?]
  rfl

theorem buildset_mem_iff (u : UnionType) (fm : FieldIndexMap) (f : Field) :
    f ∈ build_union_fields_set u fm ↔
      (memberFields u fm).find? (fun g => g.name = f.name) = some f := by
  rw [mem_iff_find?_of_nodup _ (buildset_nodup u fm), buildset_find?]

theorem buildset_names_iff (u : UnionType) (fm : FieldIndexMap) (n : String) :
    (∃ f ∈ build_union_fields_set u fm, f.name = n) ↔
      (∃ f ∈ memberFields u fm, f.name = n) := by
  rw [← find?_isSome_iff, ← find?_isSome_iff, buildset_find?]

/-- C2: the resolved field set of a union holds exactly one representative
field per distinct field name across the union's indexed member fields,
and that representative is the first occurrence when members are visited
in declaration order and each member's fields in declaration order. -/
theorem union_field_set_first_seen :
    ∀ (u : UnionType) (fm : FieldIndexMap),
      ((build_union_fields_set u fm).map Field.name).Nodup
      ∧ (∀ f : Field, f ∈ build_union_fields_set u fm ↔
          (memberFields u fm).find? (fun g => g.name = f.name) = some f)
      ∧ (∀ n : String, (∃ f ∈ build_union_fields_set u fm, f.name = n) ↔
          (∃ f ∈ memberFields u fm, f.name = n)) := by
  intro u fm
  exact ⟨buildset_nodup u fm, buildset_mem_iff u fm, buildset_names_iff u fm⟩

/-
Structural characterization of the pass: one optional companion and a
diagnostic batch per definition.
-/

/-- The companion (if any) the pass emits for one definition:
objects/interfaces directly, unions through the resolved field set in the
oracle's iteration order, everything else none. -/
def emitDef (classify : String → TypeKind) (snake camel : String → String)
    (iter : String → List Field → List Field) (fields_map : FieldIndexMap) :
    Definition → Option CompanionType
  | Definition.typeDef (TypeDefinition.object o) =>
      some (gen_field_walk_methods classify snake camel (InternalQueryTrailNode.object o))
  | Definition.typeDef (TypeDefinition.interface i) =>
      some (gen_field_walk_methods classify snake camel (InternalQueryTrailNode.interface i))
  | Definition.typeDef (TypeDefinition.union u) =>
      some (gen_field_walk_methods classify snake camel
        (InternalQueryTrailNode.union u (iter u.name (build_union_fields_set u fields_map))))
  | _ => none

/-- The diagnostics the pass emits for one definition: the checker's output
for unions, nothing otherwise. -/
def diagsOf (fields_map : FieldIndexMap) : Definition → List Diagnostic
  | Definition.typeDef (TypeDefinition.union u) =>
      error_msg_if_field_types_dont_overlap u fields_map
  | _ => []

theorem gqt_fold (classify : String → TypeKind) (snake camel : String → String)
    (iter : String → List Field → List Field) (fm : FieldIndexMap) :
    ∀ (l : List Definition) (acc : List CompanionType × List Diagnostic),
      l.foldl
        (fun acc d =>
          match d with
          | Definition.typeDef (TypeDefinition.object obj) =>
              (acc.1 ++ [gen_field_walk_methods classify snake camel
                (InternalQueryTrailNode.object obj)], acc.2)
          | Definition.typeDef (TypeDefinition.interface i) =>
              (acc.1 ++ [gen_field_walk_methods classify snake camel
                (InternalQueryTrailNode.interface i)], acc.2)
          | Definition.typeDef (TypeDefinition.union u) =>
              (acc.1 ++ [gen_field_walk_methods classify snake camel
                (InternalQueryTrailNode.union u
                  (iter u.name (build_union_fields_set u fm)))],
               acc.2 ++ error_msg_if_field_types_dont_overlap u fm)
          | _ => acc)
        acc =
      (acc.1 ++ l.filterMap (emitDef classify snake camel iter fm),
       acc.2 ++ l.flatMap (diagsOf fm)) := by
  intro l
  induction l with
  | nil => intro acc; simp
  | cons d ds ih =>
      intro acc
      rw [List.foldl_cons, ih]
      cases d with
      | typeDef td =>
          cases td with
          | object o =>
              simp [emitDef, diagsOf, List.filterMap_cons, List.flatMap_cons, List.append_assoc]
          | interface i =>
              simp [emitDef, diagsOf, List.filterMap_cons, List.flatMap_cons, List.append_assoc]
          | union u =>
              simp [emitDef, diagsOf, List.filterMap_cons, List.flatMap_cons, List.append_assoc]
          | other n =>
              simp [emitDef, diagsOf, List.filterMap_cons, List.flatMap_cons]
      | otherDef =>
          simp [emitDef, diagsOf, List.filterMap_cons, List.flatMap_cons]

theorem gen_query_trails_eq (classify : String → TypeKind) (snake camel : String → String)
    (iter : String → List Field → List Field) (doc : Document) :
    gen_query_trails classify snake camel iter doc =
      (doc.definitions.filterMap (emitDef classify snake camel iter (build_fields_map doc)),
       doc.definitions.flatMap (diagsOf (build_fields_map doc))) := by
  unfold gen_query_trails
  rw [gqt_fold]
  simp

/-- The schema-type name of a definition the pass emits a companion for. -/
def typeDefName : Definition → Option String
  | Definition.typeDef (TypeDefinition.object o) => some o.name
  | Definition.typeDef (TypeDefinition.interface i) => some i.name
  | Definition.typeDef (TypeDefinition.union u) => some u.name
  | _ => none

theorem companions_names (classify : String → TypeKind) (snake camel : String → String)
    (iter : String → List Field → List Field) (fm : FieldIndexMap) :
    ∀ l : List Definition,
      (l.filterMap (emitDef classify snake camel iter fm)).map CompanionType.name =
        l.filterMap typeDefName := by
  intro l
  induction l with
  | nil => rfl
  | cons d ds ih =>
      cases d with
      | typeDef td =>
          cases td with
          | object o =>
              simp [emitDef, typeDefName, gen_field_walk_methods,
                InternalQueryTrailNode.nodeName, ih]
          | interface i =>
              simp [emitDef, typeDefName, gen_field_walk_methods,
                InternalQueryTrailNode.nodeName, ih]
          | union u =>
              simp [emitDef, typeDefName, gen_field_walk_methods,
                InternalQueryTrailNode.nodeName, ih]
          | other n => simp [emitDef, typeDefName, ih]
      | otherDef => simp [emitDef, typeDefName, ih]

/-- Scenario A document: `union Entity = User | Company` where `User.country`
targets `Country` and `Company.country` targets `OtherCountry`. -/
def scenA_doc : Document :=
  Document.mk
    [Definition.typeDef (TypeDefinition.union (UnionType.mk 0 "Entity" ["User", "Company"])),
     Definition.typeDef (TypeDefinition.object (ObjectType.mk "User"
       [Field.mk "country" (GqlType.nonNull (GqlType.named "Country")) 1])),
     Definition.typeDef (TypeDefinition.object (ObjectType.mk "Company"
       [Field.mk "country" (GqlType.nonNull (GqlType.named "OtherCountry")) 2])),
     Definition.typeDef (TypeDefinition.object (ObjectType.mk "Country"
       [Field.mk "id" (GqlType.nonNull (GqlType.named "Int")) 3])),
     Definition.typeDef (TypeDefinition.object (ObjectType.mk "OtherCountry"
       [Field.mk "id" (GqlType.nonNull (GqlType.named "Int")) 4]))]

/-- The one diagnostic Scenario A must produce. -/
def scenA_diag : Diagnostic :=
  Diagnostic.mk 0 "Entity" "country" "User" "Company" "Country" "OtherCountry"

/-- C4: diagnostics are non-fatal and accumulative — the pass emits one
companion per Object/Interface/Union definition, named after it and in
definition order, whatever diagnostics arise; and Scenario A produces
exactly the one `UnionFieldTypeMismatch` for `country`, `Country` vs
`OtherCountry`. -/
theorem diagnostics_non_fatal_and_scenario_a :
    (∀ (classify : String → TypeKind) (snake camel : String → String)
        (iter : String → List Field → List Field) (doc : Document),
        ((gen_query_trails classify snake camel iter doc).1).map CompanionType.name =
          doc.definitions.filterMap typeDefName)
    ∧ (∀ (classify : String → TypeKind) (snake camel : String → String)
        (iter : String → List Field → List Field),
        (gen_query_trails classify snake camel iter scenA_doc).2 = [scenA_diag]) := by
  constructor
  · intro classify snake camel iter doc
    rw [gen_query_trails_eq]
    exact companions_names classify snake camel iter (build_fields_map doc) doc.definitions
  · intro classify snake camel iter
    rw [gen_query_trails_eq]
    show scenA_doc.definitions.flatMap (diagsOf (build_fields_map scenA_doc)) = [scenA_diag]
    decide

theorem accessor_name_eq (classify : String → TypeKind) (snake camel : String → String)
    (f : Field) :
    (gen_field_walk_method classify snake camel f).name = snake f.name := by
  unfold gen_field_walk_method
  dsimp only
  cases classify (type_name f.field_type) <;> rfl

/-- Scenario D object: `type Foo` with fields `id` and `name` in order. -/
def scenD_obj : ObjectType :=
  ObjectType.mk "Foo"
    [Field.mk "id" (GqlType.nonNull (GqlType.named "Int")) 0,
     Field.mk "name" (GqlType.nonNull (GqlType.named "String")) 1]

/-- Scenario D document. -/
def scenD_doc : Document :=
  Document.mk [Definition.typeDef (TypeDefinition.object scenD_obj)]

/-- A one-interface document used to exercise the interface branch. -/
def scenI_iface : InterfaceType :=
  InterfaceType.mk "Node" [Field.mk "id" (GqlType.nonNull (GqlType.named "Int")) 0]

/-- The document holding only `scenI_iface`. -/
def scenI_doc : Document :=
  Document.mk [Definition.typeDef (TypeDefinition.interface scenI_iface)]

/-- A concrete classifier calling every target scalar. -/
def scalarClassifier : String → TypeKind := fun _ => TypeKind.scalar

/-- The identity identifier normalizer. -/
def idNorm : String → String := fun s => s

/-- The identity set-iteration oracle. -/
def idIter : String → List Field → List Field := fun _ l => l

/-- C5: every Object and Interface definition gets a companion with exactly
one accessor per declared field, a name-preserving bijection, in field
declaration order; Scenario D yields accessors `id` then `name`. -/
theorem object_interface_accessor_bijection :
    (∀ (classify : String → TypeKind) (snake camel : String → String)
        (iter : String → List Field → List Field) (doc : Document) (o : ObjectType),
        Definition.typeDef (TypeDefinition.object o) ∈ doc.definitions →
        ∃ c, c ∈ (gen_query_trails classify snake camel iter doc).1 ∧ c.name = o.name
          ∧ c.accessors.length = o.fields.length
          ∧ c.accessors.map Accessor.name = o.fields.map (fun f => snake f.name))
    ∧ (∀ (classify : String → TypeKind) (snake camel : String → String)
        (iter : String → List Field → List Field) (doc : Document) (i : InterfaceType),
        Definition.typeDef (TypeDefinition.interface i) ∈ doc.definitions →
        ∃ c, c ∈ (gen_query_trails classify snake camel iter doc).1 ∧ c.name = i.name
          ∧ c.accessors.length = i.fields.length
          ∧ c.accessors.map Accessor.name = i.fields.map (fun f => snake f.name))
    ∧ (gen_query_trails scalarClassifier idNorm idNorm idIter scenD_doc).1 =
        [CompanionType.mk "Foo"
          [Accessor.mk "id" (AccessorShape.scalarCheck "id"),
           Accessor.mk "name" (AccessorShape.scalarCheck "name")]] := by
  refine ⟨?_, ?_, ?_⟩
  · intro classify snake camel iter doc o h
    refine ⟨gen_field_walk_methods classify snake camel (InternalQueryTrailNode.object o),
      ?_, rfl, ?_, ?_⟩
    · rw [gen_query_trails_eq]
      exact List.mem_filterMap.mpr ⟨_, h, rfl⟩
    · show (o.fields.map (gen_field_walk_method classify snake camel)).length = _
      rw [List.length_map]
    · show (o.fields.map (gen_field_walk_method classify snake camel)).map Accessor.name = _
      rw [List.map_map]
      exact List.map_congr_left (fun f _ => accessor_name_eq classify snake camel f)
  · intro classify snake camel iter doc i h
    refine ⟨gen_field_walk_methods classify snake camel (InternalQueryTrailNode.interface i),
      ?_, rfl, ?_, ?_⟩
    · rw [gen_query_trails_eq]
      exact List.mem_filterMap.mpr ⟨_, h, rfl⟩
    · show (i.fields.map (gen_field_walk_method classify snake camel)).length = _
      rw [List.length_map]
    · show (i.fields.map (gen_field_walk_method classify snake camel)).map Accessor.name = _
      rw [List.map_map]
      exact List.map_congr_left (fun f _ => accessor_name_eq classify snake camel f)
  · rw [gen_query_trails_eq]
    show scenD_doc.definitions.filterMap
      (emitDef scalarClassifier idNorm idNorm idIter (build_fields_map scenD_doc)) = _
    decide

theorem object_interface_accessor_bijection_witness :
    (∃ c, c ∈ (gen_query_trails scalarClassifier idNorm idNorm idIter scenD_doc).1
        ∧ c.name = scenD_obj.name
        ∧ c.accessors.length = scenD_obj.fields.length
        ∧ c.accessors.map Accessor.name = scenD_obj.fields.map (fun f => idNorm f.name))
    ∧ (∃ c, c ∈ (gen_query_trails scalarClassifier idNorm idNorm idIter scenI_doc).1
        ∧ c.name = scenI_iface.name
        ∧ c.accessors.length = scenI_iface.fields.length
        ∧ c.accessors.map Accessor.name = scenI_iface.fields.map (fun f => idNorm f.name)) :=
  ⟨object_interface_accessor_bijection.1 scalarClassifier idNorm idNorm idIter
      scenD_doc scenD_obj (by decide),
   object_interface_accessor_bijection.2.1 scalarClassifier idNorm idNorm idIter
      scenI_doc scenI_iface (by decide)⟩

/-- The Scenario A union definition. -/
def scenA_union : UnionType := UnionType.mk 0 "Entity" ["User", "Company"]

/-- C3: for every union definition, the accessor name set of the emitted
companion equals (under the normalizer) the distinct-by-name union of the
member types' indexed field names, whatever iteration order the set
oracle picks. -/
theorem union_companion_accessor_names :
    ∀ (classify : String → TypeKind) (snake camel : String → String)
      (iter : String → List Field → List Field),
      (∀ (un : String) (fs : List Field), List.Perm (iter un fs) fs) →
      ∀ (doc : Document) (u : UnionType),
        Definition.typeDef (TypeDefinition.union u) ∈ doc.definitions →
        ∃ c, c ∈ (gen_query_trails classify snake camel iter doc).1 ∧ c.name = u.name
          ∧ (∀ a : String, a ∈ c.accessors.map Accessor.name ↔
              ∃ f ∈ memberFields u (build_fields_map doc), a = snake f.name) := by
  intro classify snake camel iter hiter doc u h
  refine ⟨gen_field_walk_methods classify snake camel
    (InternalQueryTrailNode.union u
      (iter u.name (build_union_fields_set u (build_fields_map doc)))), ?_, rfl, ?_⟩
  · rw [gen_query_trails_eq]
    exact List.mem_filterMap.mpr ⟨_, h, rfl⟩
  · intro a
    show a ∈ ((iter u.name (build_union_fields_set u (build_fields_map doc))).map
      (gen_field_walk_method classify snake camel)).map Accessor.name ↔ _
    have hperm : List.Perm
        (((iter u.name (build_union_fields_set u (build_fields_map doc))).map
          (gen_field_walk_method classify snake camel)).map Accessor.name)
        (((build_union_fields_set u (build_fields_map doc)).map
          (gen_field_walk_method classify snake camel)).map Accessor.name) :=
      List.Perm.map _ (List.Perm.map _ (hiter u.name _))
    rw [hperm.mem_iff]
    simp only [List.mem_map]
    constructor
    · rintro ⟨acc, ⟨f, hf, rfl⟩, hname⟩
      have hmem : f ∈ memberFields u (build_fields_map doc) :=
        List.mem_of_find?_eq_some ((buildset_mem_iff u _ f).mp hf)
      exact ⟨f, hmem, by rw [← hname, accessor_name_eq]⟩
    · rintro ⟨g, hg, rfl⟩
      obtain ⟨f, hf, hfn⟩ := (buildset_names_iff u (build_fields_map doc) g.name).mpr
        ⟨g, hg, rfl⟩
      exact ⟨gen_field_walk_method classify snake camel f, ⟨f, hf, rfl⟩,
        by rw [accessor_name_eq, hfn]⟩

theorem union_companion_accessor_names_witness :
    ∃ c, c ∈ (gen_query_trails scalarClassifier idNorm idNorm idIter scenA_doc).1
      ∧ c.name = scenA_union.name
      ∧ (∀ a : String, a ∈ c.accessors.map Accessor.name ↔
          ∃ f ∈ memberFields scenA_union (build_fields_map scenA_doc), a = idNorm f.name) :=
  union_companion_accessor_names scalarClassifier idNorm idNorm idIter
    (fun _ fs => List.Perm.refl fs) scenA_doc scenA_union (by decide)

/-- C6: the emitted accessor's shape follows the classifier's verdict on the
field's named target type; a scalar accessor returns true exactly when the
link is present and has a selected child with the wire name (false on an
absent link, never failing), and a composite accessor returns a not-walked
trail parameterized by the target whose link is the selected child of the
current link if any, or absent otherwise. -/
theorem accessor_shape_by_classifier :
    ∀ (classify : String → TypeKind) (snake camel : String → String) (field : Field),
      (gen_field_walk_method classify snake camel field).shape =
        (match classify (type_name field.field_type) with
         | TypeKind.scalar => AccessorShape.scalarCheck field.name
         | TypeKind.type_ =>
             AccessorShape.compositeWalk field.name (camel (type_name field.field_type)))
      ∧ (∀ (n : String) (la : Option LookAhead),
          runAccessor (AccessorShape.scalarCheck n) la = AccessorResult.boolResult true ↔
            ∃ l c, la = some l ∧ select_child l n = some c)
      ∧ (∀ n : String,
          runAccessor (AccessorShape.scalarCheck n) none = AccessorResult.boolResult false)
      ∧ (∀ (n target : String),
          runAccessor (AccessorShape.compositeWalk n target) none =
            AccessorResult.trailResult (QueryTrail.mk none target))
      ∧ (∀ (n target : String) (l : LookAhead),
          runAccessor (AccessorShape.compositeWalk n target) (some l) =
            AccessorResult.trailResult (QueryTrail.mk (select_child l n) target)) := by
  intro classify snake camel field
  refine ⟨?_, ?_, ?_, ?_, ?_⟩
  · unfold gen_field_walk_method
    dsimp only
    cases classify (type_name field.field_type) <;> rfl
  · intro n la
    unfold runAccessor
    cases la with
    | none => simp
    | some l =>
        cases hc : select_child l n with
        | none => simp [hc]
        | some c => simp [hc]
  · intro n; rfl
  · intro n target; rfl
  · intro n target l; rfl

/-- C7: walking is available only on not-walked trails (the domain of
`QueryTrail.walk`), and returns an explicit optional result: an absent
link yields no transition, a present link yields a walked trail carrying
the same link. -/
theorem walk_transition_optional :
    ∀ (t : QueryTrail WalkState.notWalked),
      (t.look_ahead = none → t.walk = none)
      ∧ (∀ l : LookAhead, t.look_ahead = some l →
          t.walk = some (QueryTrail.mk (some l) t.node_type)) := by
  intro t
  constructor
  · intro h
    unfold QueryTrail.walk
    rw [h]
  · intro l h
    unfold QueryTrail.walk
    rw [h]

/-- A concrete look-ahead link. -/
def sampleLink : LookAhead := LookAhead.node "root" []

theorem walk_transition_optional_witness :
    QueryTrail.walk (QueryTrail.mk none "User") = none
    ∧ QueryTrail.walk (QueryTrail.mk (some sampleLink) "User") =
        some (QueryTrail.mk (some sampleLink) "User") :=
  ⟨(walk_transition_optional (QueryTrail.mk none "User")).1 rfl,
   (walk_transition_optional (QueryTrail.mk (some sampleLink) "User")).2 sampleLink rfl⟩

/-
Idempotence across runs: only the union set-iteration order may differ
between two runs over the same document.
-/

theorem emit_forall2 (classify : String → TypeKind) (snake camel : String → String)
    (iter₁ iter₂ : String → List Field → List Field) (fm : FieldIndexMap)
    (h₁ : ∀ (un : String) (fs : List Field), List.Perm (iter₁ un fs) fs)
    (h₂ : ∀ (un : String) (fs : List Field), List.Perm (iter₂ un fs) fs) :
    ∀ l : List Definition,
      List.Forall₂ (fun c₁ c₂ => c₁.name = c₂.name ∧
          List.Perm (c₁.accessors.map Accessor.name) (c₂.accessors.map Accessor.name))
        (l.filterMap (emitDef classify snake camel iter₁ fm))
        (l.filterMap (emitDef classify snake camel iter₂ fm)) := by
  intro l
  induction l with
  | nil => exact List.Forall₂.nil
  | cons d ds ih =>
      cases d with
      | typeDef td =>
          cases td with
          | object o =>
              simp only [List.filterMap_cons, emitDef]
              exact List.Forall₂.cons ⟨rfl, List.Perm.refl _⟩ ih
          | interface i =>
              simp only [List.filterMap_cons, emitDef]
              exact List.Forall₂.cons ⟨rfl, List.Perm.refl _⟩ ih
          | union u =>
              simp only [List.filterMap_cons, emitDef]
              refine List.Forall₂.cons ⟨rfl, ?_⟩ ih
              show List.Perm
                (((iter₁ u.name (build_union_fields_set u fm)).map
                  (gen_field_walk_method classify snake camel)).map Accessor.name)
                (((iter₂ u.name (build_union_fields_set u fm)).map
                  (gen_field_walk_method classify snake camel)).map Accessor.name)
              have p₁ := List.Perm.map Accessor.name
                (List.Perm.map (gen_field_walk_method classify snake camel)
                  (h₁ u.name (build_union_fields_set u fm)))
              have p₂ := List.Perm.map Accessor.name
                (List.Perm.map (gen_field_walk_method classify snake camel)
                  (h₂ u.name (build_union_fields_set u fm)))
              exact p₁.trans p₂.symm
          | other n =>
              simp only [List.filterMap_cons, emitDef]
              exact ih
      | otherDef =>
          simp only [List.filterMap_cons, emitDef]
          exact ih

theorem emit_congr_no_union (classify : String → TypeKind) (snake camel : String → String)
    (iter₁ iter₂ : String → List Field → List Field) (fm : FieldIndexMap) :
    ∀ l : List Definition,
      (∀ u : UnionType, Definition.typeDef (TypeDefinition.union u) ∉ l) →
      l.filterMap (emitDef classify snake camel iter₁ fm) =
        l.filterMap (emitDef classify snake camel iter₂ fm) := by
  intro l
  induction l with
  | nil => intro _; rfl
  | cons d ds ih =>
      intro hno
      have hno' : ∀ u : UnionType, Definition.typeDef (TypeDefinition.union u) ∉ ds :=
        fun u hu => hno u (List.mem_cons_of_mem d hu)
      cases d with
      | typeDef td =>
          cases td with
          | object o => simp only [List.filterMap_cons, emitDef]; rw [ih hno']
          | interface i => simp only [List.filterMap_cons, emitDef]; rw [ih hno']
          | union u => exact absurd (List.mem_cons_self _ _) (hno u)
          | other n => simp only [List.filterMap_cons, emitDef]; exact ih hno'
      | otherDef => simp only [List.filterMap_cons, emitDef]; exact ih hno'

/-- Whether the pass emits a companion for this definition
(Object/Interface/Union). -/
def keepsCompanion : Definition → Bool
  | Definition.typeDef (TypeDefinition.object _) => true
  | Definition.typeDef (TypeDefinition.interface _) => true
  | Definition.typeDef (TypeDefinition.union _) => true
  | _ => false

theorem emit_forall2_tagged (classify : String → TypeKind) (snake camel : String → String)
    (iter₁ iter₂ : String → List Field → List Field) (fm : FieldIndexMap)
    (h₁ : ∀ (un : String) (fs : List Field), List.Perm (iter₁ un fs) fs)
    (h₂ : ∀ (un : String) (fs : List Field), List.Perm (iter₂ un fs) fs) :
    ∀ l : List Definition,
      List.Forall₂
        (fun d (p : CompanionType × CompanionType) =>
          p.1.name = p.2.name
          ∧ List.Perm (p.1.accessors.map Accessor.name) (p.2.accessors.map Accessor.name)
          ∧ ((∀ u : UnionType, d ≠ Definition.typeDef (TypeDefinition.union u)) →
              p.1 = p.2))
        (l.filter keepsCompanion)
        ((l.filterMap (emitDef classify snake camel iter₁ fm)).zip
          (l.filterMap (emitDef classify snake camel iter₂ fm))) := by
  intro l
  induction l with
  | nil => exact List.Forall₂.nil
  | cons d ds ih =>
      cases d with
      | typeDef td =>
          cases td with
          | object o =>
              rw [show (Definition.typeDef (TypeDefinition.object o) :: ds).filter
                keepsCompanion = Definition.typeDef (TypeDefinition.object o) ::
                  ds.filter keepsCompanion from by simp [List.filter_cons, keepsCompanion]]
              simp only [List.filterMap_cons, emitDef, List.zip_cons_cons]
              exact List.Forall₂.cons ⟨rfl, List.Perm.refl _, fun _ => rfl⟩ ih
          | interface i =>
              rw [show (Definition.typeDef (TypeDefinition.interface i) :: ds).filter
                keepsCompanion = Definition.typeDef (TypeDefinition.interface i) ::
                  ds.filter keepsCompanion from by simp [List.filter_cons, keepsCompanion]]
              simp only [List.filterMap_cons, emitDef, List.zip_cons_cons]
              exact List.Forall₂.cons ⟨rfl, List.Perm.refl _, fun _ => rfl⟩ ih
          | union u =>
              rw [show (Definition.typeDef (TypeDefinition.union u) :: ds).filter
                keepsCompanion = Definition.typeDef (TypeDefinition.union u) ::
                  ds.filter keepsCompanion from by simp [List.filter_cons, keepsCompanion]]
              simp only [List.filterMap_cons, emitDef, List.zip_cons_cons]
              refine List.Forall₂.cons ⟨rfl, ?_, ?_⟩ ih
              · show List.Perm
                  (((iter₁ u.name (build_union_fields_set u fm)).map
                    (gen_field_walk_method classify snake camel)).map Accessor.name)
                  (((iter₂ u.name (build_union_fields_set u fm)).map
                    (gen_field_walk_method classify snake camel)).map Accessor.name)
                have p₁ := List.Perm.map Accessor.name
                  (List.Perm.map (gen_field_walk_method classify snake camel)
                    (h₁ u.name (build_union_fields_set u fm)))
                have p₂ := List.Perm.map Accessor.name
                  (List.Perm.map (gen_field_walk_method classify snake camel)
                    (h₂ u.name (build_union_fields_set u fm)))
                exact p₁.trans p₂.symm
              · intro h
                exact absurd rfl (h u)
          | other nm =>
              rw [show (Definition.typeDef (TypeDefinition.other nm) :: ds).filter
                keepsCompanion = ds.filter keepsCompanion from by
                  simp [List.filter_cons, keepsCompanion]]
              simp only [List.filterMap_cons, emitDef]
              exact ih
      | otherDef =>
          rw [show (Definition.otherDef :: ds).filter keepsCompanion =
            ds.filter keepsCompanion from by simp [List.filter_cons, keepsCompanion]]
          simp only [List.filterMap_cons, emitDef]
          exact ih

/-- C8: two runs over the same document (differing only in the arbitrary
set-iteration order of union field sets) produce identical diagnostics and
positionally matching companions with equal names and permuted accessor
name lists; aligning each companion pair with its originating definition,
any pair whose origin is not a union definition is identical across the
two runs — on every document, mixed or not — so Object/Interface accessor
order is stable across runs while union accessor order need not be; a
union-free document gives entirely identical output. -/
theorem pass_idempotent_runs :
    ∀ (classify : String → TypeKind) (snake camel : String → String)
      (iter₁ iter₂ : String → List Field → List Field) (doc : Document),
      (∀ (un : String) (fs : List Field), List.Perm (iter₁ un fs) fs) →
      (∀ (un : String) (fs : List Field), List.Perm (iter₂ un fs) fs) →
      ((gen_query_trails classify snake camel iter₁ doc).2 =
        (gen_query_trails classify snake camel iter₂ doc).2)
      ∧ List.Forall₂ (fun c₁ c₂ => c₁.name = c₂.name ∧
          List.Perm (c₁.accessors.map Accessor.name) (c₂.accessors.map Accessor.name))
          (gen_query_trails classify snake camel iter₁ doc).1
          (gen_query_trails classify snake camel iter₂ doc).1
      ∧ List.Forall₂
          (fun d (p : CompanionType × CompanionType) =>
            p.1.name = p.2.name
            ∧ List.Perm (p.1.accessors.map Accessor.name)
                (p.2.accessors.map Accessor.name)
            ∧ ((∀ u : UnionType, d ≠ Definition.typeDef (TypeDefinition.union u)) →
                p.1 = p.2))
          (doc.definitions.filter keepsCompanion)
          (((gen_query_trails classify snake camel iter₁ doc).1).zip
            ((gen_query_trails classify snake camel iter₂ doc).1))
      ∧ ((∀ u : UnionType,
            Definition.typeDef (TypeDefinition.union u) ∉ doc.definitions) →
          gen_query_trails classify snake camel iter₁ doc =
            gen_query_trails classify snake camel iter₂ doc) := by
  intro classify snake camel iter₁ iter₂ doc h₁ h₂
  refine ⟨?_, ?_, ?_, ?_⟩
  · rw [gen_query_trails_eq, gen_query_trails_eq]
  · rw [gen_query_trails_eq, gen_query_trails_eq]
    exact emit_forall2 classify snake camel iter₁ iter₂ (build_fields_map doc) h₁ h₂
      doc.definitions
  · rw [gen_query_trails_eq, gen_query_trails_eq]
    exact emit_forall2_tagged classify snake camel iter₁ iter₂ (build_fields_map doc)
      h₁ h₂ doc.definitions
  · intro hno
    rw [gen_query_trails_eq, gen_query_trails_eq]
    rw [emit_congr_no_union classify snake camel iter₁ iter₂ (build_fields_map doc)
      doc.definitions hno]

/-- The reversing set-iteration oracle, a second concrete run order. -/
def revIter : String → List Field → List Field := fun _ l => l.reverse

theorem pass_idempotent_runs_witness :
    ((gen_query_trails scalarClassifier idNorm idNorm idIter scenA_doc).2 =
      (gen_query_trails scalarClassifier idNorm idNorm revIter scenA_doc).2)
    ∧ List.Forall₂ (fun c₁ c₂ => c₁.name = c₂.name ∧
        List.Perm (c₁.accessors.map Accessor.name) (c₂.accessors.map Accessor.name))
        (gen_query_trails scalarClassifier idNorm idNorm idIter scenA_doc).1
        (gen_query_trails scalarClassifier idNorm idNorm revIter scenA_doc).1
    ∧ List.Forall₂
        (fun d (p : CompanionType × CompanionType) =>
          p.1.name = p.2.name
          ∧ List.Perm (p.1.accessors.map Accessor.name)
              (p.2.accessors.map Accessor.name)
          ∧ ((∀ u : UnionType, d ≠ Definition.typeDef (TypeDefinition.union u)) →
              p.1 = p.2))
        (scenA_doc.definitions.filter keepsCompanion)
        (((gen_query_trails scalarClassifier idNorm idNorm idIter scenA_doc).1).zip
          ((gen_query_trails scalarClassifier idNorm idNorm revIter scenA_doc).1))
    ∧ ((∀ u : UnionType,
          Definition.typeDef (TypeDefinition.union u) ∉ scenA_doc.definitions) →
        gen_query_trails scalarClassifier idNorm idNorm idIter scenA_doc =
          gen_query_trails scalarClassifier idNorm idNorm revIter scenA_doc) :=
  pass_idempotent_runs scalarClassifier idNorm idNorm idIter revIter scenA_doc
    (fun _ fs => List.Perm.refl fs) (fun _ fs => List.reverse_perm fs)

/-
Characterization of the field index: object-type definitions only.
-/

/-- The object definition carried by `d` when it is an object named `n`. -/
def objNamedOf (n : String) : Definition → Option ObjectType
  | Definition.typeDef (TypeDefinition.object o) => if o.name = n then some o else none
  | _ => none

/-- All object-type definitions of the document named `n`, in order. -/
def objsNamed (doc : Document) (n : String) : List ObjectType :=
  doc.definitions.filterMap (objNamedOf n)

/-- Whether a definition is an object-type definition. -/
def keepsObject : Definition → Bool
  | Definition.typeDef (TypeDefinition.object _) => true
  | _ => false

theorem fmGet_nil (j : String) : fmGet [] j = none := rfl

theorem fmGet_cons (e : String × List Field) (rest : FieldIndexMap) (j : String) :
    fmGet (e :: rest) j = if e.1 = j then some e.2 else fmGet rest j := by
  unfold fmGet
  by_cases h : e.1 = j
  · rw [List.find?_cons_of_pos _ (by simp [h])]
    simp [h]
  · rw [List.find?_cons_of_neg _ (by simp [h])]
    simp [h]

theorem fmInsert_get (k : String) (f : Field) :
    ∀ (m : FieldIndexMap) (j : String),
      fmGet (fmInsertField m k f) j =
        if j = k then some ((fmGet m k).getD [] ++ [f]) else fmGet m j := by
  intro m
  induction m with
  | nil =>
      intro j
      show fmGet [(k, [f])] j = _
      rw [fmGet_cons]
      by_cases h : j = k
      · simp [h, fmGet_nil]
      · simp [h, Ne.symm h, fmGet_nil]
  | cons e rest ih =>
      intro j
      show fmGet (if e.1 = k then (e.1, e.2 ++ [f]) :: rest
        else e :: fmInsertField rest k f) j = _
      by_cases he : e.1 = k
      · rw [if_pos he, fmGet_cons, fmGet_cons]
        by_cases hj : e.1 = j
        · have hjk : j = k := by rw [← hj, he]
          rw [if_pos hj, if_pos hjk]
          simp [he]
        · have hjk : j ≠ k := by
            rw [← he]
            exact fun hh => hj hh.symm
          rw [if_neg hj, if_neg hjk, fmGet_cons, if_neg hj]
      · rw [if_neg he, fmGet_cons, ih j]
        by_cases hj : e.1 = j
        · have hjk : j ≠ k := by
            rw [← hj]
            exact he
          rw [if_pos hj, if_neg hjk, fmGet_cons, if_pos hj]
        · rw [if_neg hj]
          by_cases hjk : j = k
          · rw [if_pos hjk, if_pos hjk, fmGet_cons, if_neg he]
          · rw [if_neg hjk, if_neg hjk, fmGet_cons, if_neg hj]

theorem fmInsert_fields_get (k : String) :
    ∀ (fields : List Field) (m : FieldIndexMap) (j : String),
      fmGet (fields.foldl (fun m2 f => fmInsertField m2 k f) m) j =
        if j = k then
          (match fmGet m k with
           | some fs => some (fs ++ fields)
           | none => if fields.isEmpty then none else some fields)
        else fmGet m j := by
  intro fields
  induction fields with
  | nil =>
      intro m j
      by_cases h : j = k
      · rw [if_pos h, h]
        cases hm : fmGet m k with
        | some fs => simp [hm]
        | none => simp [hm]
      · simp [h]
  | cons f fs ih =>
      intro m j
      rw [List.foldl_cons, ih]
      by_cases h : j = k
      · rw [if_pos h, if_pos h, fmInsert_get, if_pos rfl]
        cases hm : fmGet m k with
        | some gs => simp [hm, List.append_assoc]
        | none => simp [hm]
      · rw [if_neg h, if_neg h, fmInsert_get, if_neg h]

theorem bfm_fold_get (n : String) :
    ∀ (l : List Definition) (m : FieldIndexMap),
      fmGet (l.foldl
        (fun m d =>
          match d with
          | Definition.typeDef (TypeDefinition.object obj) =>
              obj.fields.foldl (fun m2 f => fmInsertField m2 obj.name f) m
          | _ => m)
        m) n =
      (match fmGet m n with
       | some fs => some (fs ++ (l.filterMap (objNamedOf n)).flatMap ObjectType.fields)
       | none =>
           if ((l.filterMap (objNamedOf n)).flatMap ObjectType.fields).isEmpty then none
           else some ((l.filterMap (objNamedOf n)).flatMap ObjectType.fields)) := by
  intro l
  induction l with
  | nil =>
      intro m
      cases hm : fmGet m n with
      | some fs => simp [hm]
      | none => simp [hm]
  | cons d ds ih =>
      intro m
      rw [List.foldl_cons]
      cases d with
      | typeDef td =>
          cases td with
          | object o =>
              rw [ih, fmInsert_fields_get]
              by_cases ho : o.name = n
              · rw [if_pos ho.symm, ho]
                have hhead : (Definition.typeDef (TypeDefinition.object o) ::
                    ds).filterMap (objNamedOf n) = o :: ds.filterMap (objNamedOf n) := by
                  simp [List.filterMap_cons, objNamedOf, ho]
                rw [hhead, List.flatMap_cons]
                cases hm : fmGet m n with
                | some fs => simp [hm, List.append_assoc]
                | none =>
                    cases hfe : o.fields with
                    | nil => simp [hm]
                    | cons f0 fs0 => simp [hm]
              · rw [if_neg (fun hh => ho hh.symm)]
                have hhead : (Definition.typeDef (TypeDefinition.object o) ::
                    ds).filterMap (objNamedOf n) = ds.filterMap (objNamedOf n) := by
                  simp [List.filterMap_cons, objNamedOf, ho]
                rw [hhead]
          | interface i =>
              rw [ih]
              simp [objNamedOf, List.filterMap_cons]
          | union u =>
              rw [ih]
              simp [objNamedOf, List.filterMap_cons]
          | other nm =>
              rw [ih]
              simp [objNamedOf, List.filterMap_cons]
      | otherDef =>
          rw [ih]
          simp [objNamedOf, List.filterMap_cons]

theorem bfm_get (doc : Document) (n : String) :
    fmGet (build_fields_map doc) n =
      (if ((objsNamed doc n).flatMap ObjectType.fields).isEmpty then none
       else some ((objsNamed doc n).flatMap ObjectType.fields)) := by
  unfold build_fields_map objsNamed
  rw [bfm_fold_get]
  rfl

theorem bfm_filter_fold :
    ∀ (l : List Definition) (m : FieldIndexMap),
      l.foldl
        (fun m d =>
          match d with
          | Definition.typeDef (TypeDefinition.object obj) =>
              obj.fields.foldl (fun m2 f => fmInsertField m2 obj.name f) m
          | _ => m)
        m =
      (l.filter keepsObject).foldl
        (fun m d =>
          match d with
          | Definition.typeDef (TypeDefinition.object obj) =>
              obj.fields.foldl (fun m2 f => fmInsertField m2 obj.name f) m
          | _ => m)
        m := by
  intro l
  induction l with
  | nil => intro m; rfl
  | cons d ds ih =>
      intro m
      cases d with
      | typeDef td =>
          cases td with
          | object o =>
              rw [List.foldl_cons]
              rw [show (Definition.typeDef (TypeDefinition.object o) :: ds).filter
                keepsObject = Definition.typeDef (TypeDefinition.object o) ::
                  ds.filter keepsObject from by simp [List.filter_cons, keepsObject]]
              rw [List.foldl_cons]
              exact ih _
          | interface i =>
              rw [List.foldl_cons]
              rw [show (Definition.typeDef (TypeDefinition.interface i) :: ds).filter
                keepsObject = ds.filter keepsObject from by
                  simp [List.filter_cons, keepsObject]]
              exact ih _
          | union u =>
              rw [List.foldl_cons]
              rw [show (Definition.typeDef (TypeDefinition.union u) :: ds).filter
                keepsObject = ds.filter keepsObject from by
                  simp [List.filter_cons, keepsObject]]
              exact ih _
          | other nm =>
              rw [List.foldl_cons]
              rw [show (Definition.typeDef (TypeDefinition.other nm) :: ds).filter
                keepsObject = ds.filter keepsObject from by
                  simp [List.filter_cons, keepsObject]]
              exact ih _
      | otherDef =>
          rw [List.foldl_cons]
          rw [show (Definition.otherDef :: ds).filter keepsObject =
            ds.filter keepsObject from by simp [List.filter_cons, keepsObject]]
          exact ih _

theorem mem_objsNamed (doc : Document) (n : String) (o : ObjectType) :
    o ∈ objsNamed doc n ↔
      Definition.typeDef (TypeDefinition.object o) ∈ doc.definitions ∧ o.name = n := by
  unfold objsNamed
  rw [List.mem_filterMap]
  constructor
  · rintro ⟨d, hd, hsome⟩
    cases d with
    | typeDef td =>
        cases td with
        | object o' =>
            by_cases h : o'.name = n
            · simp only [objNamedOf, if_pos h, Option.some.injEq] at hsome
              subst hsome
              exact ⟨hd, h⟩
            · simp [objNamedOf, h] at hsome
        | interface i => simp [objNamedOf] at hsome
        | union u => simp [objNamedOf] at hsome
        | other nm => simp [objNamedOf] at hsome
    | otherDef => simp [objNamedOf] at hsome
  · rintro ⟨hd, hn⟩
    exact ⟨_, hd, by simp [objNamedOf, hn]⟩

/-- C9: the field index is a pure function of the document aggregating
fields only from object-type definitions: filtering out non-object
definitions leaves the index unchanged, its value at any name is the
concatenation of the fields of the objects so named (absent when that is
empty), every present key names an object-type definition, and the entry
for a uniquely named object with fields is exactly that object's field
list in declaration order. -/
theorem fields_map_objects_only :
    ∀ doc : Document,
      (∀ n : String,
        fmGet (build_fields_map doc) n =
          (if ((objsNamed doc n).flatMap ObjectType.fields).isEmpty then none
           else some ((objsNamed doc n).flatMap ObjectType.fields)))
      ∧ build_fields_map doc =
          build_fields_map (Document.mk (doc.definitions.filter keepsObject))
      ∧ (∀ n : String, (fmGet (build_fields_map doc) n).isSome = true →
          ∃ o : ObjectType,
            Definition.typeDef (TypeDefinition.object o) ∈ doc.definitions ∧ o.name = n)
      ∧ (∀ (n : String) (o : ObjectType), objsNamed doc n = [o] → o.fields ≠ [] →
          fmGet (build_fields_map doc) n = some o.fields) := by
  intro doc
  refine ⟨bfm_get doc, ?_, ?_, ?_⟩
  · unfold build_fields_map
    exact bfm_filter_fold doc.definitions []
  · intro n hs
    rw [bfm_get] at hs
    by_cases he : ((objsNamed doc n).flatMap ObjectType.fields).isEmpty = true
    · rw [if_pos he] at hs
      simp at hs
    · have hne : objsNamed doc n ≠ [] := by
        intro hnil
        rw [hnil] at he
        simp at he
      obtain ⟨o, ho⟩ := List.exists_mem_of_ne_nil _ hne
      obtain ⟨hd, hn⟩ := (mem_objsNamed doc n o).mp ho
      exact ⟨o, hd, hn⟩
  · intro n o hobj hfld
    rw [bfm_get, hobj]
    have : ([o].flatMap ObjectType.fields) = o.fields := by simp
    rw [this, if_neg (by simp [hfld])]

theorem fields_map_objects_only_witness :
    (∃ o : ObjectType,
        Definition.typeDef (TypeDefinition.object o) ∈ scenA_doc.definitions
          ∧ o.name = "User")
    ∧ fmGet (build_fields_map scenA_doc) "User" =
        some (ObjectType.mk "User"
          [Field.mk "country" (GqlType.nonNull (GqlType.named "Country")) 1]).fields :=
  ⟨(fields_map_objects_only scenA_doc).2.2.1 "User" (by decide),
   (fields_map_objects_only scenA_doc).2.2.2 "User"
     (ObjectType.mk "User"
       [Field.mk "country" (GqlType.nonNull (GqlType.named "Country")) 1])
     (by decide) (by decide)⟩

/-
Repeated union members: set-building is insensitive to repeats, but the
rolling checker is not when a conflicting member intervenes.
-/

/-- Counterexample index: objects A and B share field `f` with different
targets X and Y. -/
def dup_fm : FieldIndexMap :=
  [("A", [Field.mk "f" (GqlType.named "X") 0]),
   ("B", [Field.mk "f" (GqlType.named "Y") 1])]

/-- The union listing member A twice with B in between. -/
def dup_unionABA : UnionType := UnionType.mk 0 "U" ["A", "B", "A"]

/-- The same union without the repeated occurrence of A. -/
def dup_unionAB : UnionType := UnionType.mk 0 "U" ["A", "B"]

/-- C10 counterexample: the repeated occurrence of member A in `A, B, A`
causes a second `UnionFieldTypeMismatch` (the rolling entry for `f` was
overwritten by B's conflicting target in between), so a repeated member
occurrence does not always leave the diagnostics unchanged. -/
theorem repeated_member_diag_cex :
    (error_msg_if_field_types_dont_overlap dup_unionABA dup_fm).length = 2
    ∧ (error_msg_if_field_types_dont_overlap dup_unionAB dup_fm).length = 1
    ∧ error_msg_if_field_types_dont_overlap dup_unionABA dup_fm =
        [Diagnostic.mk 0 "U" "f" "A" "B" "X" "Y",
         Diagnostic.mk 0 "U" "f" "B" "A" "Y" "X"] := by
  refine ⟨?_, ?_, ?_⟩ <;> decide

theorem scanFields_prev (u : UnionType) (t : String) :
    ∀ (fields : List Field) (acc : PrevMap × List Diagnostic) (n : String),
      (fields.foldl (scanField u t) acc).1 n =
        (match fields.reverse.find? (fun f => f.name = n) with
         | some f => some (t, type_name f.field_type)
         | none => acc.1 n) := by
  intro fields
  induction fields with
  | nil => intro acc n; rfl
  | cons f fs ih =>
      intro acc n
      rw [List.foldl_cons, ih, List.reverse_cons, find?_append_oor]
      cases hg : fs.reverse.find? (fun g => g.name = n) with
      | some g => simp [oor]
      | none =>
          simp only [oor]
          by_cases hn : f.name = n
          · simp [List.find?, hn, scanField]
          · simp [List.find?, hn, scanField, Ne.symm hn]

theorem scanField_noop (u : UnionType) (t : String) (acc : PrevMap × List Diagnostic)
    (f : Field) (h : acc.1 f.name = some (t, type_name f.field_type)) :
    scanField u t acc f = acc := by
  obtain ⟨prev, ds⟩ := acc
  unfold scanField
  dsimp only at h ⊢
  rw [h]
  simp only [ne_eq, not_true_eq_false, if_neg, ite_false]
  refine Prod.ext ?_ ?_
  · funext k
    by_cases hk : k = f.name
    · dsimp only
      rw [if_pos hk, hk, h]
    · dsimp only
      rw [if_neg hk]
  · simp

theorem scanFields_stable (u : UnionType) (t : String) :
    ∀ (fields : List Field) (acc : PrevMap × List Diagnostic),
      (∀ f ∈ fields, acc.1 f.name = some (t, type_name f.field_type)) →
      fields.foldl (scanField u t) acc = acc := by
  intro fields
  induction fields with
  | nil => intro acc _; rfl
  | cons f fs ih =>
      intro acc hall
      rw [List.foldl_cons, scanField_noop u t acc f (hall f (List.mem_cons_self f fs))]
      exact ih acc (fun g hg => hall g (List.mem_cons_of_mem f hg))

theorem scan_twice (fm : FieldIndexMap) (u : UnionType) (t : String)
    (hnd : (((fmGet fm t).getD []).map Field.name).Nodup)
    (acc : PrevMap × List Diagnostic) :
    scanMember fm u (scanMember fm u acc t) t = scanMember fm u acc t := by
  unfold scanMember
  cases hg : fmGet fm t with
  | none => rfl
  | some fields =>
      rw [hg] at hnd
      simp only [Option.getD_some] at hnd
      apply scanFields_stable
      intro f hf
      rw [scanFields_prev]
      have hndr : (fields.reverse.map Field.name).Nodup := by
        rw [List.map_reverse]
        exact List.nodup_reverse.mpr hnd
      have hrev : fields.reverse.find? (fun g => g.name = f.name) = some f :=
        (mem_iff_find?_of_nodup fields.reverse hndr f).mp (List.mem_reverse.mpr hf)
      rw [hrev]

theorem foldl_insert_noop (S : List Field) :
    ∀ fields : List Field, (∀ f ∈ fields, ∃ g ∈ S, g.name = f.name) →
      fields.foldl insertFieldByName S = S := by
  intro fields
  induction fields with
  | nil => intro _; rfl
  | cons f fs ih =>
      intro hall
      have hins : insertFieldByName S f = S := by
        unfold insertFieldByName
        rw [if_pos ((any_name_iff S f.name).mpr (hall f (List.mem_cons_self f fs)))]
      rw [List.foldl_cons, hins]
      exact ih (fun g hg => hall g (List.mem_cons_of_mem f hg))

theorem buildset_append_member (u : UnionType) (fm : FieldIndexMap) (t : String)
    (ht : t ∈ u.types) :
    build_union_fields_set (UnionType.mk u.position u.name (u.types ++ [t])) fm =
      build_union_fields_set u fm := by
  rw [buildset_eq, buildset_eq]
  have hmf : memberFields (UnionType.mk u.position u.name (u.types ++ [t])) fm =
      memberFields u fm ++ (fmGet fm t).getD [] := by
    show (u.types ++ [t]).flatMap _ = _
    rw [List.flatMap_append]
    simp [memberFields]
  rw [hmf, List.foldl_append]
  apply foldl_insert_noop
  intro f hf
  have hmem : f ∈ memberFields u fm := by
    show f ∈ u.types.flatMap _
    exact List.mem_flatMap.mpr ⟨t, ht, hf⟩
  have := (buildset_names_iff u fm f.name).mpr ⟨f, hmem, rfl⟩
  rw [buildset_eq] at this
  exact this

theorem error_msg_repeat (p : Nat) (nm : String) (fm : FieldIndexMap)
    (l₁ l₂ : List String) (t : String)
    (hnd : (((fmGet fm t).getD []).map Field.name).Nodup) :
    error_msg_if_field_types_dont_overlap (UnionType.mk p nm (l₁ ++ t :: t :: l₂)) fm =
      error_msg_if_field_types_dont_overlap (UnionType.mk p nm (l₁ ++ t :: l₂)) fm := by
  show ((l₁ ++ t :: t :: l₂).foldl
      (scanMember fm (UnionType.mk p nm (l₁ ++ t :: l₂))) (fun _ => none, [])).2 = _
  rw [List.foldl_append]
  conv_rhs =>
    rw [show error_msg_if_field_types_dont_overlap
      (UnionType.mk p nm (l₁ ++ t :: l₂)) fm =
      ((l₁ ++ t :: l₂).foldl (scanMember fm (UnionType.mk p nm (l₁ ++ t :: l₂)))
        (fun _ => none, [])).2 from rfl]
    rw [List.foldl_append]
  rw [List.foldl_cons, List.foldl_cons, List.foldl_cons,
    scan_twice fm (UnionType.mk p nm (l₁ ++ t :: l₂)) t hnd]

/-- C10 (amended): appending an already-listed member to a union's member
list never changes the resolved field set; and an immediately repeated
member occurrence (no intervening member) causes no extra diagnostic when
its indexed fields have distinct names.  A non-adjacent repeat can emit a
new diagnostic when an intervening member overwrote the rolling entry
with a different target, as the counterexample shows. -/
theorem repeated_member_amended :
    (∀ (u : UnionType) (fm : FieldIndexMap) (t : String), t ∈ u.types →
        build_union_fields_set (UnionType.mk u.position u.name (u.types ++ [t])) fm =
          build_union_fields_set u fm)
    ∧ (∀ (p : Nat) (nm : String) (fm : FieldIndexMap) (l₁ l₂ : List String) (t : String),
        (((fmGet fm t).getD []).map Field.name).Nodup →
        error_msg_if_field_types_dont_overlap
            (UnionType.mk p nm (l₁ ++ t :: t :: l₂)) fm =
          error_msg_if_field_types_dont_overlap
            (UnionType.mk p nm (l₁ ++ t :: l₂)) fm) :=
  ⟨buildset_append_member, error_msg_repeat⟩

theorem repeated_member_amended_witness :
    build_union_fields_set
        (UnionType.mk dup_unionAB.position dup_unionAB.name
          (dup_unionAB.types ++ ["A"])) dup_fm =
      build_union_fields_set dup_unionAB dup_fm
    ∧ error_msg_if_field_types_dont_overlap
          (UnionType.mk 0 "U" (["A"] ++ "B" :: "B" :: [])) dup_fm =
        error_msg_if_field_types_dont_overlap
          (UnionType.mk 0 "U" (["A"] ++ "B" :: [])) dup_fm :=
  ⟨repeated_member_amended.1 dup_unionAB dup_fm "A" (by decide),
   repeated_member_amended.2 0 "U" dup_fm ["A"] [] "B" (by decide)⟩

end QTG
